import Mathlib

/-!
Verification of the EchoVLM DICOM batch-inference driver (`MIMICdataset.py`)
and the companion cleanup script (`clean_pixel_data.py`) against the
repository specification.  The Python driver is shallowly embedded: the
per-directory processing loop becomes a fold over an indexed file list, the
on-disk state (`results.json`, `failed.txt`, `done_dirs.txt`) becomes an
explicit record, and writes become events applied to that record.
-/

namespace EchoVLM

/-- Number of temporal frames kept before striding (`FRAMES_TAKE = 32` in
`MIMICdataset.py`, `frames_to_take = 32` in `run.py`). -/
def FRAMES_TAKE : Nat := 32

/-- Temporal stride (`FRAME_STRIDE = 2`). -/
def FRAME_STRIDE : Nat := 2

/-- Classifier batch size (`BATCH_SIZE = 16`). -/
def BATCH_SIZE : Nat := 16

/-! ## Temporal assembly (`process_single_dicom`, lines 94-99)

A video is modelled temporally: each frame is abstracted to an integer token
(`0` is the zero frame used for padding); spatial content is irrelevant to
the temporal claims. -/

/-- Right-pad a frame sequence with zero frames up to `FRAMES_TAKE`
(`if vid.shape[1] < FRAMES_TAKE: ... torch.cat((vid, pad), 1)`). -/
def padFrames (frames : List Int) : List Int :=
  if frames.length < FRAMES_TAKE then
    frames ++ List.replicate (FRAMES_TAKE - frames.length) 0
  else frames

/-- Every-other-element selection: the step-2 part of the Python slice
`[start : start + FRAMES_TAKE : FRAME_STRIDE]` with `FRAME_STRIDE = 2`,
applied after the list is cut at the slice bound. -/
def stride2 {α : Type} : List α → List α
  | [] => []
  | [a] => [a]
  | a :: _ :: rest => a :: stride2 rest

/-- Temporal part of `process_single_dicom`: pad, then take the slice
`vid[:, 0 : 0 + FRAMES_TAKE : FRAME_STRIDE]` (`start = 0`). -/
def assembleVideo (frames : List Int) : List Int :=
  stride2 ((padFrames frames).take FRAMES_TAKE)

/-! ## Dictionaries (Python `dict`, insertion-ordered) -/

/-- Lookup in an insertion-ordered dictionary. -/
def dictGet {α : Type} (k : String) : List (String × α) → Option α
  | [] => none
  | p :: rest => if p.1 = k then some p.2 else dictGet k rest

/-- Python `d[k] = v` on a `dict`: replace in place when the key already
exists, append otherwise. -/
def dictInsert {α : Type} (k : String) (v : α) (d : List (String × α)) :
    List (String × α) :=
  if (dictGet k d).isSome then
    d.map (fun p => if p.1 = k then (k, v) else p)
  else d ++ [(k, v)]

/-- Python `if k in d: del d[k]` — remove a key from the dictionary. -/
def dictErase {α : Type} (k : String) (d : List (String × α)) :
    List (String × α) :=
  d.filter (fun p => p.1 != k)

/-! ## One DICOM file and `process_single_dicom` -/

/-- Serialized metadata mapping: element name ↦ `_safe(el.repval)` rendering
(modelled as an abstract string). -/
abbrev Meta := List (String × String)

/-- One `.dcm` file as the driver sees it: its base name, whether
`pydicom.dcmread` / pixel decoding raises, its named data elements (what the
iteration `for el in dcm` yields, including any "Pixel Data" element), the
shape of `dcm.pixel_array`, and its temporal frames. -/
structure DicomFile where
  name : String
  decodeFails : Bool
  elements : Meta
  shape : List Nat
  frames : List Int
deriving Repr, DecidableEq

/-- The metadata dict comprehension
`meta = {el.name: _safe(el.repval) for el in dcm}` (line 76). -/
def serializeMeta (els : Meta) : Meta :=
  els.foldl (fun d p => dictInsert p.1 p.2 d) []

/-- The shape guard of `process_single_dicom` (line 79):
`pixels.ndim < 3 or pixels.shape[2] == 3`. -/
def shapeRaises (shape : List Nat) : Bool :=
  decide (shape.length < 3) || decide (shape[2]? = some 3)

/-- Outcome of `process_single_dicom`: a metadata/tensor pair, or an
exception propagating to the caller. -/
inductive PSD where
  | ok (meta : Meta) (vid : List Int)
  | raised
deriving Repr, DecidableEq

/-- The function `process_single_dicom` (lines 74-100): read the file, serialize the
metadata, check the pixel-array shape, assemble the video tensor.  Masking,
crop/scale and mean/std normalization are frame-wise external capabilities
and do not affect the temporal token model. -/
def process_single_dicom (f : DicomFile) : PSD :=
  if f.decodeFails then .raised
  else if shapeRaises f.shape then .raised
  else .ok (serializeMeta f.elements) (assembleVideo f.frames)

/-! ## The per-directory loop of `main` (lines 139-176) -/

/-- A value stored under a file key in `results.json`.  The spec's
ResultRecord admits a success form `{metadata, predicted_view}` and an error
form `{error, trace}`; the driver itself only ever constructs the success
form (line 161). -/
inductive ResultRecord where
  | succRec (metadata : Meta) (predicted_view : String)
  | errRec (error : String) (tr : String)
deriving Repr, DecidableEq

/-- Contents of one `results.json` document. -/
abbrev ResultMap := List (String × ResultRecord)

/-- In-memory state of the loop over one directory's files. -/
structure DirState where
  metas : List Meta
  vids : List (List Int)
  names : List String
  failed : List String
  results : ResultMap
  flushLog : List (ResultMap × List String)
  classifyCount : Nat
  attempted : List String
deriving Repr, DecidableEq

/-- The key `os.path.relpath(Path(root) / name, MOUNT_ROOT)` for a file inside the
directory with relative path `rel`. -/
def fkey (rel nm : String) : String := rel ++ "/" ++ nm

/-- The `try`/`except` body of the per-file loop (lines 143-151): attempt
`process_single_dicom`; on success append to the three parallel buffers, on
exception append the relative path to the failure list. -/
def intake (rel : String) (s : DirState) (f : DicomFile) : DirState :=
  let s := { s with attempted := s.attempted ++ [fkey rel f.name] }
  match process_single_dicom f with
  | .ok meta vid =>
      { s with metas := s.metas ++ [meta], vids := s.vids ++ [vid],
               names := s.names ++ [f.name] }
  | .raised => { s with failed := s.failed ++ [fkey rel f.name] }

/-- The flush body (lines 156-170): classify the stacked buffer (the batch
argmax is per item, abstracted by `view`), merge `(name, metadata, view)`
triples into the result map, write the full result map and failure list
(recorded in `flushLog`), and clear the buffers. -/
def doFlush (view : List Int → String) (rel : String) (s : DirState) :
    DirState :=
  let views := s.vids.map view
  let merged := ((s.names.zip s.metas).zip views).foldl
      (fun r p => dictInsert (fkey rel p.1.1) (ResultRecord.succRec p.1.2 p.2) r)
      s.results
  { s with results := merged,
           flushLog := s.flushLog ++ [(merged, s.failed)],
           classifyCount := s.classifyCount + 1,
           metas := [], vids := [], names := [] }

/-- The flush condition (lines 154-155):
`len(vids) >= BATCH_SIZE or (last_item and vids)`. -/
def flushNow (total i : Nat) (s : DirState) : Bool :=
  decide (BATCH_SIZE ≤ s.vids.length)
    || (decide (i = total - 1) && decide (s.vids ≠ []))

/-- One iteration of the per-file loop: intake, then flush when due. -/
def dirStep (view : List Int → String) (rel : String) (total : Nat)
    (s : DirState) (ixf : Nat × DicomFile) : DirState :=
  let s1 := intake rel s ixf.2
  if flushNow total ixf.1 s1 then doFlush view rel s1 else s1

/-- Initial state `failed, results = [], {}` plus the empty buffers. -/
def startState : DirState := ⟨[], [], [], [], [], [], 0, []⟩

/-- The whole `for i, name in enumerate(dcms)` loop over one directory. -/
def processDir (view : List Int → String) (rel : String)
    (dcms : List DicomFile) : DirState :=
  (dcms.enum).foldl (dirStep view rel dcms.length) startState

/-! ## The filesystem and the directory walk -/

/-- Persistent on-disk state: the lines of `done_dirs.txt`, and the
per-directory `results.json` / `failed.txt` documents (present iff listed).
The in-memory `DONE_DIRS` set mirrors `doneDirs` exactly, since every file
append is paired with a set insertion (lines 133-135, 173-175). -/
structure FS where
  doneDirs : List String
  resultsFiles : List (String × ResultMap)
  failedFiles : List (String × List String)
deriving Repr, DecidableEq

/-- One unit of work from `os.walk`: a directory (by relative path) and its
`.dcm` files in listing order. -/
structure DirUnit where
  rel : String
  dcms : List DicomFile
deriving Repr, DecidableEq

/-- An externally visible write performed by the driver. -/
inductive Event where
  | flushWrite (rel : String) (results : ResultMap) (failed : List String)
  | markDone (rel : String)
deriving Repr, DecidableEq

/-- Effect of a write on the filesystem: a flush overwrites the directory's
`results.json` and `failed.txt` whole-file; a completion mark appends one
line to `done_dirs.txt`. -/
def applyEvent (fs : FS) : Event → FS
  | .flushWrite rel res fl =>
      { fs with resultsFiles := dictInsert rel res fs.resultsFiles,
                failedFiles := dictInsert rel fl fs.failedFiles }
  | .markDone rel => { fs with doneDirs := fs.doneDirs ++ [rel] }

/-- Observable per-directory log: classifier invocations and the files for
which `process_single_dicom` was attempted. -/
structure RunLog where
  classifyCount : Nat
  attempted : List String
deriving Repr, DecidableEq

/-- One iteration of the `os.walk` loop (lines 114-176), as the ordered
event sequence it emits plus its log: skip directories without `.dcm`
files; skip directories already in `DONE_DIRS`; directories whose
`results.json` exists are marked done and skipped; otherwise process every
file and finally mark the directory done. -/
def dirEvents (view : List Int → String) (fs : FS) (d : DirUnit) :
    List Event × RunLog :=
  if d.dcms = [] then ([], ⟨0, []⟩)
  else if d.rel ∈ fs.doneDirs then ([], ⟨0, []⟩)
  else if (dictGet d.rel fs.resultsFiles).isSome then
    ([Event.markDone d.rel], ⟨0, []⟩)
  else
    let st := processDir view d.rel d.dcms
    (st.flushLog.map (fun w => Event.flushWrite d.rel w.1 w.2)
       ++ [Event.markDone d.rel],
     ⟨st.classifyCount, st.attempted⟩)

/-- One iteration of the walk applied to the filesystem. -/
def runDir (view : List Int → String) (fs : FS) (d : DirUnit) : FS × RunLog :=
  ((dirEvents view fs d).1.foldl applyEvent fs, (dirEvents view fs d).2)

/-- Fold step of a whole run: apply one directory, accumulate the log. -/
def runStep (view : List Int → String) (acc : FS × RunLog) (d : DirUnit) :
    FS × RunLog :=
  ((runDir view acc.1 d).1,
   ⟨acc.2.classifyCount + (runDir view acc.1 d).2.classifyCount,
    acc.2.attempted ++ (runDir view acc.1 d).2.attempted⟩)

/-- A whole driver run (`main`): the walk over all directories. -/
def runAll (view : List Int → String) (fs : FS) (dirs : List DirUnit) :
    FS × RunLog :=
  dirs.foldl (runStep view) (fs, ⟨0, []⟩)

/-! ## `clean_pixel_data_from_json` (clean_pixel_data.py, lines 36-47) -/

/-- Per-entry transformation of the cleanup pass: for each record that has a
`metadata` field, delete the "Pixel Data" and "Sequence of Ultrasound
Regions" keys when present; records without a `metadata` field are left
unchanged. -/
def cleanRecord : ResultRecord → ResultRecord
  | .succRec md pv =>
      let md1 := if (dictGet "Pixel Data" md).isSome then
        dictErase "Pixel Data" md else md
      let md2 := if (dictGet "Sequence of Ultrasound Regions" md1).isSome then
        dictErase "Sequence of Ultrasound Regions" md1 else md1
      .succRec md2 pv
  | r => r

/-- The function `clean_pixel_data_from_json` applied to one `results.json`
document. -/
def clean_pixel_data_from_json (data : ResultMap) : ResultMap :=
  data.map (fun p => (p.1, cleanRecord p.2))

/-! ## Concrete scenarios -/

/-- A stub per-item classifier (deterministic, as the spec's testable
properties prescribe). -/
def viewStub : List Int → String := fun _ => "A4C"

/-- Fresh on-disk state: empty `done_dirs.txt`, no output documents. -/
def fsEmpty : FS := ⟨[], [], []⟩

/-- A file whose DICOM read raises (corrupt file). -/
def fileBad : DicomFile := ⟨"a.dcm", true, [], [], []⟩

/-- A valid 40-frame study whose element iteration includes a
"Pixel Data" element. -/
def filePix : DicomFile :=
  ⟨"b.dcm", false,
   [("Pixel Data", "Array of 100 elements"), ("Rows", "224")],
   [40, 224, 224], [1, 2, 3]⟩

/-- A 4-D color video: a pixel array whose LAST dimension is 3 (channels)
but whose dimension at index 2 (width) is not. -/
def fileWide : DicomFile := ⟨"c.dcm", false, [], [40, 224, 224, 3], [9]⟩

/-- A directory whose single file fails to decode. -/
def dirAllFail : DirUnit := ⟨"sub", [fileBad]⟩

/-- A directory with one corrupt file and one valid file. -/
def dirMixed : DirUnit := ⟨"sub", [fileBad, filePix]⟩

/-- Two valid files in directory `d`. -/
def fileOne : DicomFile := ⟨"f1", false, [("Rows", "1")], [40, 224, 224], [1]⟩

/-- Second valid file in directory `d`. -/
def fileTwo : DicomFile := ⟨"f2", false, [("Rows", "2")], [40, 224, 224], [2]⟩

/-- On-disk state in which directory `d` already has a `results.json`
holding a record for `d/f1` only — a mid-directory interruption left
`d/f2` unprocessed. -/
def fsPartRes : FS :=
  ⟨[], [("d", [("d/f1", ResultRecord.succRec [("Rows", "1")] "A4C")])], []⟩

/-- Directory `d` with files `f1` (already in the old `results.json`) and
`f2` (not yet processed). -/
def dirD : DirUnit := ⟨"d", [fileOne, fileTwo]⟩

/-! ## Auxiliary definitions for the loop characterization -/

/-- Whether `process_single_dicom` raises on this file. -/
def raisedB (f : DicomFile) : Bool :=
  decide (process_single_dicom f = PSD.raised)

/-- The `results.json` entry produced for a successfully classified file. -/
def recOf (view : List Int → String) (rel : String) (f : DicomFile) :
    String × ResultRecord :=
  (fkey rel f.name,
   ResultRecord.succRec (serializeMeta f.elements)
     (view (assembleVideo f.frames)))

/-- Fold a batch of key/record pairs into a result map with `dictInsert`. -/
def insertAll {α : Type} (d : List (String × α)) (xs : List (String × α)) :
    List (String × α) :=
  xs.foldl (fun r p => dictInsert p.1 p.2 r) d

/-- A single 2-D-plus-color still: shape `[600, 800, 3]`, the case the
heuristic is meant to reject. -/
def fileStill : DicomFile := ⟨"s.dcm", false, [], [600, 800, 3], [7]⟩
/-! ## Theorems -/

theorem stride2_length {α : Type} :
    ∀ xs : List α, (stride2 xs).length = (xs.length + 1) / 2
  | [] => by simp [stride2]
  | [_] => by simp [stride2]
  | _ :: _ :: rest => by
      simp only [stride2, List.length_cons, stride2_length rest]
      omega

theorem stride2_getElem? {α : Type} :
    ∀ (xs : List α) (k : Nat), (stride2 xs)[k]? = xs[2 * k]?
  | [], k => by simp [stride2]
  | [a], 0 => rfl
  | [a], k + 1 => by
      simp only [stride2]
      rw [List.getElem?_eq_none (by simp), List.getElem?_eq_none (by simp; omega)]
  | a :: b :: rest, 0 => by simp [stride2]
  | a :: b :: rest, k + 1 => by
      have ih := stride2_getElem? rest k
      simp only [stride2, List.getElem?_cons_succ]
      rw [show 2 * (k + 1) = 2 * k + 1 + 1 by ring]
      simp only [List.getElem?_cons_succ]
      exact ih

theorem getElem?_take_of_lt {α : Type} :
    ∀ (l : List α) (n i : Nat), i < n → (l.take n)[i]? = l[i]?
  | [], _, _, _ => by simp
  | _ :: _, n + 1, 0, _ => by simp
  | a :: l, n + 1, i + 1, h =>
      by simpa using getElem?_take_of_lt l n i (by omega)
  | _ :: _, 0, i, h => by omega

theorem padFrames_length (frames : List Int) :
    (padFrames frames).length =
      if frames.length < FRAMES_TAKE then FRAMES_TAKE else frames.length := by
  unfold padFrames
  split
  · simp
    omega
  · simp

theorem padFrames_of_long {frames : List Int}
    (h : FRAMES_TAKE ≤ frames.length) : padFrames frames = frames := by
  unfold padFrames
  rw [if_neg (by omega)]

theorem padFrames_getElem?_of_short {frames : List Int}
    (h : frames.length < FRAMES_TAKE) (i : Nat) (hi : i < FRAMES_TAKE) :
    (padFrames frames)[i]? =
      if i < frames.length then frames[i]? else some 0 := by
  unfold padFrames
  rw [if_pos h]
  by_cases hlt : i < frames.length
  · rw [if_pos hlt, List.getElem?_append, if_pos hlt]
  · rw [if_neg hlt, List.getElem?_append, if_neg hlt, List.getElem?_replicate,
      if_pos (by omega)]

/-- C5: the assembled tensor's temporal axis.  For every raw frame sequence:
the output temporal length is exactly `FRAMES_TAKE / FRAME_STRIDE = 16`; the
selection always starts at offset 0 and takes indices
`FRAME_STRIDE * k` (`k < 16`, i.e. `0, 2, …, 30`) of the padded sequence;
for `L ≥ FRAMES_TAKE` the output frames are exactly the original frames at
those indices (never truncated from the front); for `L < FRAMES_TAKE` the
sequence is right-padded with zero frames to exactly `FRAMES_TAKE` before
striding, so index `FRAME_STRIDE * k` yields the original frame when in
range and the zero frame otherwise. -/
theorem C5_temporal_assembly (frames : List Int) :
    (assembleVideo frames).length = FRAMES_TAKE / FRAME_STRIDE
    ∧ (∀ k, k < FRAMES_TAKE / FRAME_STRIDE →
        (assembleVideo frames)[k]? = (padFrames frames)[FRAME_STRIDE * k]?)
    ∧ (FRAMES_TAKE ≤ frames.length →
        ∀ k, k < FRAMES_TAKE / FRAME_STRIDE →
          (assembleVideo frames)[k]? = frames[FRAME_STRIDE * k]?)
    ∧ (frames.length < FRAMES_TAKE →
        ∀ k, k < FRAMES_TAKE / FRAME_STRIDE →
          (assembleVideo frames)[k]? =
            if FRAME_STRIDE * k < frames.length then frames[FRAME_STRIDE * k]?
            else some 0) := by
  have hpadlen : FRAMES_TAKE ≤ (padFrames frames).length := by
    rw [padFrames_length]
    split <;> omega
  have htakelen : ((padFrames frames).take FRAMES_TAKE).length = FRAMES_TAKE := by
    rw [List.length_take]
    omega
  have h32 : FRAMES_TAKE = 32 := rfl
  have h2 : FRAME_STRIDE = 2 := rfl
  have hsel : ∀ k, k < FRAMES_TAKE / FRAME_STRIDE →
      (assembleVideo frames)[k]? = (padFrames frames)[FRAME_STRIDE * k]? := by
    intro k hk
    unfold assembleVideo
    rw [stride2_getElem?, h2]
    exact getElem?_take_of_lt _ _ _ (by rw [h32, h2] at hk; rw [h32]; omega)
  refine ⟨?_, hsel, ?_, ?_⟩
  · unfold assembleVideo
    rw [stride2_length, htakelen]
    decide
  · intro hlong k hk
    rw [hsel k hk, padFrames_of_long hlong]
  · intro hshort k hk
    rw [hsel k hk]
    exact padFrames_getElem?_of_short hshort _ (by rw [h32, h2] at hk; rw [h32, h2]; omega)

/-- Witness for C5 at a concrete 3-frame sequence: length is 16, frame 1 of
the output is original frame 2, frame 2 of the output is the zero pad. -/
theorem C5_temporal_assembly_witness :
    (assembleVideo [5, 6, 7]).length = 16
    ∧ (assembleVideo [5, 6, 7])[1]? = some 7
    ∧ (assembleVideo [5, 6, 7])[2]? = some 0 := by
  obtain ⟨h1, _, _, h4⟩ := C5_temporal_assembly [5, 6, 7]
  refine ⟨h1, ?_, ?_⟩
  · have := h4 (by decide) 1 (by decide)
    simpa using this
  · have := h4 (by decide) 2 (by decide)
    simpa using this

/-- C1 (counterexample): directory `d` has a pre-existing `results.json`
holding only `d/f1`; the claim predicts the driver loads it and attempts
processing of `d/f2` (whose key is absent).  Instead the driver attempts no
file at all, performs zero classifier invocations, leaves the `results.json`
document unchanged (still no `d/f2` key), and appends `d` to
`done_dirs.txt`. -/
theorem C1_counterexample :
    (runDir viewStub fsPartRes dirD).2 = ⟨0, []⟩
    ∧ dictGet "d" (runDir viewStub fsPartRes dirD).1.resultsFiles
        = some [("d/f1", ResultRecord.succRec [("Rows", "1")] "A4C")]
    ∧ dictGet "d/f2" [("d/f1", ResultRecord.succRec [("Rows", "1")] "A4C")]
        = none
    ∧ (runDir viewStub fsPartRes dirD).1.doneDirs = ["d"] := by
  decide

/-- C2 (code bug, evaluated at the failing input): in a directory whose
every file raises, the success buffer stays empty, so the flush branch never
runs — no `results.json` or `failed.txt` is ever written — yet the driver
still appends the directory to `done_dirs.txt`.  The completion marker is
thus written without the directory's results and failure list ever being
flushed, violating the flush-before-mark invariant. -/
theorem C2_done_marker_without_flush :
    (dirEvents viewStub fsEmpty dirAllFail).1 = [Event.markDone "sub"]
    ∧ (runDir viewStub fsEmpty dirAllFail).1.resultsFiles = []
    ∧ (runDir viewStub fsEmpty dirAllFail).1.failedFiles = []
    ∧ (runDir viewStub fsEmpty dirAllFail).1.doneDirs = ["sub"]
    ∧ (processDir viewStub "sub" dirAllFail.dcms).failed = ["sub/a.dcm"] := by
  decide

/-- C3 (counterexample): the driver's metadata comprehension iterates every
data element, so the success record it writes to `results.json` carries a
"Pixel Data" key whenever the dataset has that element. -/
theorem C3_counterexample :
    dictGet "sub" (runDir viewStub fsEmpty dirMixed).1.resultsFiles
      = some [("sub/b.dcm",
          ResultRecord.succRec
            [("Pixel Data", "Array of 100 elements"), ("Rows", "224")] "A4C")]
    ∧ dictGet "Pixel Data"
        [("Pixel Data", "Array of 100 elements"), ("Rows", "224")]
      = some "Array of 100 elements" := by
  decide

/-- C4 (counterexample): a file whose processing raises gets no entry of any
form in the directory's result map — in particular no `{error, trace}`
record; it is only recorded as a bare relative path in the failure list. -/
theorem C4_counterexample :
    process_single_dicom fileBad = PSD.raised
    ∧ dictGet "sub/a.dcm" (processDir viewStub "sub" [fileBad, filePix]).results
        = none
    ∧ (processDir viewStub "sub" [fileBad, filePix]).results
        = [("sub/b.dcm",
            ResultRecord.succRec
              [("Pixel Data", "Array of 100 elements"), ("Rows", "224")] "A4C")]
    ∧ (processDir viewStub "sub" [fileBad, filePix]).failed = ["sub/a.dcm"] := by
  decide

/-- C6 (counterexample): the code's heuristic tests the dimension at index
2, not the last dimension.  A 4-D color-video pixel array of shape
`[40, 224, 224, 3]` has last dimension exactly 3, yet assembly does not
fail on it (nor should it — it is a real video, which shows the claim's
"last dimension" reading cannot be what the code implements). -/
theorem C6_counterexample :
    shapeRaises [40, 224, 224, 3] = false
    ∧ ([40, 224, 224, 3] : List Nat).getLast? = some 3
    ∧ ¬ (([40, 224, 224, 3] : List Nat).length < 3)
    ∧ process_single_dicom fileWide ≠ PSD.raised := by
  decide

/-! ## Dictionary lemmas -/

theorem dictGet_append_of_none {α : Type} (k : String) :
    ∀ (d e : List (String × α)), dictGet k d = none →
      dictGet k (d ++ e) = dictGet k e
  | [], _, _ => rfl
  | p :: rest, e, h => by
      by_cases hk : p.1 = k
      · rw [dictGet, if_pos hk] at h
        exact absurd h (by simp)
      · rw [dictGet, if_neg hk] at h
        rw [List.cons_append, dictGet, if_neg hk]
        exact dictGet_append_of_none k rest e h

theorem dictGet_map_update_self {α : Type} (k : String) (v : α) :
    ∀ d : List (String × α), (dictGet k d).isSome →
      dictGet k (d.map (fun p => if p.1 = k then (k, v) else p)) = some v
  | [], h => by simp [dictGet] at h
  | p :: rest, h => by
      by_cases hk : p.1 = k
      · simp only [List.map_cons, if_pos hk, dictGet]
        simp
      · simp only [dictGet, if_neg hk] at h
        simp only [List.map_cons, if_neg hk, dictGet, if_neg hk]
        exact dictGet_map_update_self k v rest h

theorem dictGet_map_update_ne {α : Type} (k k' : String) (v : α)
    (hne : k' ≠ k) :
    ∀ d : List (String × α),
      dictGet k' (d.map (fun p => if p.1 = k then (k, v) else p))
        = dictGet k' d
  | [] => rfl
  | p :: rest => by
      by_cases hk : p.1 = k
      · simp only [List.map_cons, if_pos hk, dictGet]
        rw [if_neg (fun h => hne h.symm),
          if_neg (by rw [hk]; exact fun h => hne h.symm)]
        exact dictGet_map_update_ne k k' v hne rest
      · simp only [List.map_cons, if_neg hk, dictGet]
        by_cases hk' : p.1 = k'
        · rw [if_pos hk', if_pos hk']
        · rw [if_neg hk', if_neg hk']
          exact dictGet_map_update_ne k k' v hne rest

theorem dictGet_append_single_ne {α : Type} (k k' : String) (v : α)
    (hne : k' ≠ k) :
    ∀ d : List (String × α), dictGet k' (d ++ [(k, v)]) = dictGet k' d
  | [] => by
      simp only [List.nil_append, dictGet]
      rw [if_neg (fun h => hne h.symm)]
  | p :: rest => by
      simp only [List.cons_append, dictGet]
      by_cases hk' : p.1 = k'
      · rw [if_pos hk', if_pos hk']
      · rw [if_neg hk', if_neg hk']
        exact dictGet_append_single_ne k k' v hne rest

theorem dictGet_dictInsert_self {α : Type} (k : String) (v : α)
    (d : List (String × α)) : dictGet k (dictInsert k v d) = some v := by
  unfold dictInsert
  split
  · rename_i hsome
    exact dictGet_map_update_self k v d hsome
  · rename_i hnone
    have h0 : dictGet k d = none := by
      cases h : dictGet k d
      · rfl
      · rw [h] at hnone
        simp at hnone
    rw [dictGet_append_of_none k d _ h0]
    simp [dictGet]

theorem dictGet_dictInsert_ne {α : Type} (k k' : String) (v : α)
    (hne : k' ≠ k) (d : List (String × α)) :
    dictGet k' (dictInsert k v d) = dictGet k' d := by
  unfold dictInsert
  split
  · exact dictGet_map_update_ne k k' v hne d
  · exact dictGet_append_single_ne k k' v hne d

/-! ## Per-step facts about the directory loop -/

theorem flushNow_iff (total i : Nat) (s : DirState) :
    flushNow total i s = true
      ↔ (BATCH_SIZE ≤ s.vids.length ∨ (i = total - 1 ∧ s.vids ≠ [])) := by
  simp [flushNow]

theorem intake_classifyCount (rel : String) (s : DirState) (f : DicomFile) :
    (intake rel s f).classifyCount = s.classifyCount := by
  unfold intake
  cases process_single_dicom f <;> rfl

theorem intake_flushLog (rel : String) (s : DirState) (f : DicomFile) :
    (intake rel s f).flushLog = s.flushLog := by
  unfold intake
  cases process_single_dicom f <;> rfl

theorem doFlush_eq (view : List Int → String) (rel : String) (s : DirState) :
    doFlush view rel s =
      { s with
          results := ((s.names.zip s.metas).zip (s.vids.map view)).foldl
            (fun r p =>
              dictInsert (fkey rel p.1.1) (ResultRecord.succRec p.1.2 p.2) r)
            s.results,
          flushLog := s.flushLog
            ++ [(((s.names.zip s.metas).zip (s.vids.map view)).foldl
                  (fun r p =>
                    dictInsert (fkey rel p.1.1)
                      (ResultRecord.succRec p.1.2 p.2) r)
                  s.results, s.failed)],
          classifyCount := s.classifyCount + 1,
          metas := [], vids := [], names := [] } := rfl

/-- C7: within a directory, the classifier runs exactly when, after the
current file's intake, the tensor buffer has reached `BATCH_SIZE` or the
last file has been consumed with a non-empty buffer; every invocation is
immediately followed by recording a write of the full current result map and
full current failure list, after which the buffers are cleared; when the
condition does not hold the step performs no classification and no write;
and a flush write stores the flushed documents whole-file, replacing any
previous content for that directory. -/
theorem C7_flush_discipline (view : List Int → String) (rel : String)
    (total i : Nat) (s : DirState) (f : DicomFile) :
    ((dirStep view rel total s (i, f)).classifyCount = s.classifyCount + 1
      ↔ (BATCH_SIZE ≤ (intake rel s f).vids.length
          ∨ (i = total - 1 ∧ (intake rel s f).vids ≠ [])))
    ∧ ((BATCH_SIZE ≤ (intake rel s f).vids.length
          ∨ (i = total - 1 ∧ (intake rel s f).vids ≠ [])) →
        (dirStep view rel total s (i, f)).flushLog
            = (intake rel s f).flushLog
              ++ [((dirStep view rel total s (i, f)).results,
                   (dirStep view rel total s (i, f)).failed)]
          ∧ (dirStep view rel total s (i, f)).vids = []
          ∧ (dirStep view rel total s (i, f)).metas = []
          ∧ (dirStep view rel total s (i, f)).names = [])
    ∧ (¬ (BATCH_SIZE ≤ (intake rel s f).vids.length
          ∨ (i = total - 1 ∧ (intake rel s f).vids ≠ [])) →
        dirStep view rel total s (i, f) = intake rel s f)
    ∧ (∀ (fs : FS) (res : ResultMap) (fl : List String),
        dictGet rel (applyEvent fs (Event.flushWrite rel res fl)).resultsFiles
            = some res
        ∧ dictGet rel (applyEvent fs (Event.flushWrite rel res fl)).failedFiles
            = some fl) := by
  have hstep : dirStep view rel total s (i, f)
      = if flushNow total i (intake rel s f) then
          doFlush view rel (intake rel s f)
        else intake rel s f := rfl
  by_cases hb : flushNow total i (intake rel s f) = true
  · have hcond := (flushNow_iff total i (intake rel s f)).mp hb
    rw [hstep, if_pos hb, doFlush_eq]
    refine ⟨?_, ?_, ?_, ?_⟩
    · simp only [intake_classifyCount]
      exact ⟨fun _ => hcond, fun _ => trivial⟩
    · intro _
      exact ⟨by simp [intake_flushLog], rfl, rfl, rfl⟩
    · intro hnc
      exact absurd hcond hnc
    · intro fs res fl
      exact ⟨dictGet_dictInsert_self rel res fs.resultsFiles,
             dictGet_dictInsert_self rel fl fs.failedFiles⟩
  · have hcond : ¬ (BATCH_SIZE ≤ (intake rel s f).vids.length
        ∨ (i = total - 1 ∧ (intake rel s f).vids ≠ [])) := by
      intro hc
      exact hb ((flushNow_iff total i (intake rel s f)).mpr hc)
    rw [hstep, if_neg hb]
    refine ⟨?_, fun hc => absurd hc hcond, fun _ => rfl, ?_⟩
    · rw [intake_classifyCount]
      constructor
      · intro habs
        omega
      · intro hc
        exact absurd hc hcond
    · intro fs res fl
      exact ⟨dictGet_dictInsert_self rel res fs.resultsFiles,
             dictGet_dictInsert_self rel fl fs.failedFiles⟩

/-- Witness for C7: processing the single valid file of a one-file
directory triggers exactly one classification with a flush of the full
(one-entry) result map and empty failure list, and clears the buffer. -/
theorem C7_flush_discipline_witness :
    (dirStep viewStub "sub" 1 startState (0, filePix)).classifyCount
        = startState.classifyCount + 1
    ∧ (dirStep viewStub "sub" 1 startState (0, filePix)).flushLog
        = [((dirStep viewStub "sub" 1 startState (0, filePix)).results,
            (dirStep viewStub "sub" 1 startState (0, filePix)).failed)]
    ∧ (dirStep viewStub "sub" 1 startState (0, filePix)).vids = [] := by
  have h := C7_flush_discipline viewStub "sub" 1 0 startState filePix
  have hcond : BATCH_SIZE ≤ (intake "sub" startState filePix).vids.length
      ∨ (0 = 1 - 1 ∧ (intake "sub" startState filePix).vids ≠ []) := by
    right
    exact ⟨rfl, by decide⟩
  obtain ⟨h1, h2, _, _⟩ := h
  obtain ⟨h2a, h2b, _, _⟩ := h2 hcond
  refine ⟨h1.mpr hcond, ?_, h2b⟩
  rw [h2a]
  have : (intake "sub" startState filePix).flushLog = [] := by decide
  rw [this]
  rfl

/-! ## Characterization of the per-directory fold -/

theorem intake_raised (rel : String) (s : DirState) (f : DicomFile)
    (h : process_single_dicom f = PSD.raised) :
    intake rel s f
      = { s with attempted := s.attempted ++ [fkey rel f.name],
                 failed := s.failed ++ [fkey rel f.name] } := by
  unfold intake
  rw [h]

theorem intake_ok (rel : String) (s : DirState) (f : DicomFile)
    (m : Meta) (v : List Int) (h : process_single_dicom f = PSD.ok m v) :
    intake rel s f
      = { s with attempted := s.attempted ++ [fkey rel f.name],
                 metas := s.metas ++ [m], vids := s.vids ++ [v],
                 names := s.names ++ [f.name] } := by
  unfold intake
  rw [h]

theorem psd_ok_inv (f : DicomFile) (m : Meta) (v : List Int)
    (h : process_single_dicom f = PSD.ok m v) :
    m = serializeMeta f.elements ∧ v = assembleVideo f.frames := by
  unfold process_single_dicom at h
  split at h
  · exact absurd h (by simp)
  · split at h
    · exact absurd h (by simp)
    · injection h with h1 h2
      exact ⟨h1.symm, h2.symm⟩

theorem dirStep_eq (view : List Int → String) (rel : String)
    (total i : Nat) (s : DirState) (f : DicomFile) :
    dirStep view rel total s (i, f)
      = if flushNow total i (intake rel s f) then
          doFlush view rel (intake rel s f)
        else intake rel s f := rfl

theorem step_attempted (view : List Int → String) (rel : String)
    (total i : Nat) (s : DirState) (f : DicomFile) :
    (dirStep view rel total s (i, f)).attempted
      = s.attempted ++ [fkey rel f.name] := by
  have hin : (intake rel s f).attempted = s.attempted ++ [fkey rel f.name] := by
    unfold intake
    cases process_single_dicom f <;> rfl
  rw [dirStep_eq]
  split
  · rw [doFlush_eq]
    exact hin
  · exact hin

theorem step_failed (view : List Int → String) (rel : String)
    (total i : Nat) (s : DirState) (f : DicomFile) :
    (dirStep view rel total s (i, f)).failed
      = s.failed ++ (if raisedB f then [fkey rel f.name] else []) := by
  have hin : (intake rel s f).failed
      = s.failed ++ (if raisedB f then [fkey rel f.name] else []) := by
    unfold intake raisedB
    cases h : process_single_dicom f
    · simp [h]
    · simp [h]
  rw [dirStep_eq]
  split
  · rw [doFlush_eq]
    exact hin
  · exact hin

theorem foldSteps_attempted (view : List Int → String) (rel : String)
    (total : Nat) :
    ∀ (l : List DicomFile) (j : Nat) (s : DirState),
      ((l.enumFrom j).foldl (dirStep view rel total) s).attempted
        = s.attempted ++ l.map (fun f => fkey rel f.name)
  | [], _, _ => by simp [List.enumFrom]
  | f :: rest, j, s => by
      simp only [List.enumFrom, List.foldl_cons]
      rw [foldSteps_attempted view rel total rest (j + 1)
        (dirStep view rel total s (j, f))]
      rw [step_attempted]
      simp

theorem foldSteps_failed (view : List Int → String) (rel : String)
    (total : Nat) :
    ∀ (l : List DicomFile) (j : Nat) (s : DirState),
      ((l.enumFrom j).foldl (dirStep view rel total) s).failed
        = s.failed
          ++ (l.filter (fun f => raisedB f)).map (fun f => fkey rel f.name)
  | [], _, _ => by simp [List.enumFrom]
  | f :: rest, j, s => by
      simp only [List.enumFrom, List.foldl_cons]
      rw [foldSteps_failed view rel total rest (j + 1)
        (dirStep view rel total s (j, f))]
      rw [step_failed]
      by_cases h : raisedB f
      · simp [h, List.filter_cons]
      · simp [h, List.filter_cons]

theorem foldSteps_allRaised (view : List Int → String) (rel : String)
    (total : Nat) :
    ∀ (l : List DicomFile) (j : Nat) (s : DirState),
      (∀ f ∈ l, process_single_dicom f = PSD.raised) →
      s.vids = [] →
      ((l.enumFrom j).foldl (dirStep view rel total) s).flushLog = s.flushLog
      ∧ ((l.enumFrom j).foldl (dirStep view rel total) s).classifyCount
          = s.classifyCount
      ∧ ((l.enumFrom j).foldl (dirStep view rel total) s).results = s.results
      ∧ ((l.enumFrom j).foldl (dirStep view rel total) s).vids = []
  | [], _, _, _, hv => by simp [List.enumFrom, hv]
  | f :: rest, j, s, hall, hv => by
      have hf := hall f (by simp)
      have hnoflush : flushNow total j (intake rel s f) = false := by
        rw [intake_raised rel s f hf]
        simp [flushNow, hv, BATCH_SIZE]
      have hstep : dirStep view rel total s (j, f)
          = { s with attempted := s.attempted ++ [fkey rel f.name],
                     failed := s.failed ++ [fkey rel f.name] } := by
        rw [dirStep_eq, if_neg (by simp [hnoflush]),
          intake_raised rel s f hf]
      simp only [List.enumFrom, List.foldl_cons, hstep]
      exact foldSteps_allRaised view rel total rest (j + 1) _
        (fun g hg => hall g (List.mem_cons_of_mem f hg)) hv

/-! ## Directory- and run-level lemmas -/

theorem processDir_eq (view : List Int → String) (rel : String)
    (dcms : List DicomFile) :
    processDir view rel dcms
      = (dcms.enumFrom 0).foldl (dirStep view rel dcms.length) startState := rfl

theorem runDir_eq (view : List Int → String) (fs : FS) (d : DirUnit) :
    runDir view fs d
      = ((dirEvents view fs d).1.foldl applyEvent fs,
         (dirEvents view fs d).2) := rfl

theorem dirEvents_skip (view : List Int → String) (fs : FS) (d : DirUnit)
    (h : d.dcms = [] ∨ d.rel ∈ fs.doneDirs) :
    dirEvents view fs d = ([], ⟨0, []⟩) := by
  unfold dirEvents
  rcases h with h | h
  · rw [if_pos h]
  · by_cases h0 : d.dcms = []
    · rw [if_pos h0]
    · rw [if_neg h0, if_pos h]

theorem dirEvents_res_exists (view : List Int → String) (fs : FS)
    (d : DirUnit) (h0 : d.dcms ≠ []) (h1 : d.rel ∉ fs.doneDirs)
    (h2 : (dictGet d.rel fs.resultsFiles).isSome) :
    dirEvents view fs d = ([Event.markDone d.rel], ⟨0, []⟩) := by
  unfold dirEvents
  rw [if_neg h0, if_neg h1, if_pos h2]

theorem dirEvents_pending (view : List Int → String) (fs : FS) (d : DirUnit)
    (h0 : d.dcms ≠ []) (h1 : d.rel ∉ fs.doneDirs)
    (h2 : dictGet d.rel fs.resultsFiles = none) :
    dirEvents view fs d
      = ((processDir view d.rel d.dcms).flushLog.map
            (fun w => Event.flushWrite d.rel w.1 w.2)
          ++ [Event.markDone d.rel],
         ⟨(processDir view d.rel d.dcms).classifyCount,
          (processDir view d.rel d.dcms).attempted⟩) := by
  unfold dirEvents
  rw [if_neg h0, if_neg h1, if_neg (by rw [h2]; simp)]

theorem runDir_skip (view : List Int → String) (fs : FS) (d : DirUnit)
    (h : d.dcms = [] ∨ d.rel ∈ fs.doneDirs) :
    runDir view fs d = (fs, ⟨0, []⟩) := by
  rw [runDir_eq, dirEvents_skip view fs d h]
  rfl

theorem applyEvent_done_mono (fs : FS) (e : Event) (x : String)
    (h : x ∈ fs.doneDirs) : x ∈ (applyEvent fs e).doneDirs := by
  cases e
  · exact h
  · exact List.mem_append_left _ h

theorem foldl_applyEvent_done_mono :
    ∀ (evs : List Event) (fs : FS) (x : String),
      x ∈ fs.doneDirs → x ∈ (evs.foldl applyEvent fs).doneDirs
  | [], _, _, h => h
  | e :: rest, fs, x, h =>
      foldl_applyEvent_done_mono rest (applyEvent fs e) x
        (applyEvent_done_mono fs e x h)

theorem foldl_applyEvent_markDone_last (evs : List Event) (fs : FS)
    (rel : String) :
    rel ∈ ((evs ++ [Event.markDone rel]).foldl applyEvent fs).doneDirs := by
  rw [List.foldl_append]
  exact List.mem_append_right _ (by simp)

theorem runDir_done_mem (view : List Int → String) (fs : FS) (d : DirUnit)
    (h : d.dcms ≠ []) : d.rel ∈ (runDir view fs d).1.doneDirs := by
  by_cases h1 : d.rel ∈ fs.doneDirs
  · rw [runDir_skip view fs d (Or.inr h1)]
    exact h1
  · by_cases h2 : (dictGet d.rel fs.resultsFiles).isSome
    · rw [runDir_eq, dirEvents_res_exists view fs d h h1 h2]
      exact List.mem_append_right _ (by simp)
    · have h2' : dictGet d.rel fs.resultsFiles = none := by
        cases hx : dictGet d.rel fs.resultsFiles
        · rfl
        · rw [hx] at h2
          simp at h2
      rw [runDir_eq, dirEvents_pending view fs d h h1 h2']
      exact foldl_applyEvent_markDone_last _ fs d.rel

theorem runDir_done_mono (view : List Int → String) (fs : FS) (d : DirUnit)
    (x : String) (h : x ∈ fs.doneDirs) :
    x ∈ (runDir view fs d).1.doneDirs := by
  rw [runDir_eq]
  exact foldl_applyEvent_done_mono _ fs x h

theorem foldl_runStep_done_mono (view : List Int → String) :
    ∀ (dirs : List DirUnit) (acc : FS × RunLog) (x : String),
      x ∈ acc.1.doneDirs → x ∈ (dirs.foldl (runStep view) acc).1.doneDirs
  | [], _, _, h => h
  | d :: rest, acc, x, h =>
      foldl_runStep_done_mono view rest (runStep view acc d) x
        (runDir_done_mono view acc.1 d x h)

theorem foldl_runStep_done_mem (view : List Int → String) :
    ∀ (dirs : List DirUnit) (acc : FS × RunLog) (d : DirUnit),
      d ∈ dirs → d.dcms ≠ [] →
      d.rel ∈ (dirs.foldl (runStep view) acc).1.doneDirs
  | [], _, _, hd, _ => absurd hd (by simp)
  | d0 :: rest, acc, d, hd, hne => by
      rw [List.foldl_cons]
      rcases List.mem_cons.mp hd with h | h
      · subst h
        exact foldl_runStep_done_mono view rest (runStep view acc d) d.rel
          (runDir_done_mem view acc.1 d hne)
      · exact foldl_runStep_done_mem view rest (runStep view acc d0) d h hne

theorem runAll_skip (view : List Int → String) :
    ∀ (dirs : List DirUnit) (fs : FS) (lg : RunLog),
      (∀ d ∈ dirs, d.dcms = [] ∨ d.rel ∈ fs.doneDirs) →
      dirs.foldl (runStep view) (fs, lg) = (fs, lg)
  | [], _, _, _ => rfl
  | d :: rest, fs, lg, h => by
      have hstep : runStep view (fs, lg) d = (fs, lg) := by
        unfold runStep
        rw [runDir_skip view fs d (h d (by simp))]
        cases lg
        simp
      rw [List.foldl_cons, hstep]
      exact runAll_skip view rest fs lg (fun d' hd' => h d' (by simp [hd']))

/-- C10: in a directory where every file fails to assemble, the success
buffer stays empty for the whole directory, so the flush branch never runs:
the only event emitted is the completion mark — neither `results.json` nor
`failed.txt` is written, the failure records (which the loop did accumulate
in memory, one per file) are never persisted — and the directory is still
appended to `done_dirs.txt`, so a subsequent run skips it entirely. -/
theorem C10_allfail_never_persisted (view : List Int → String) (fs : FS)
    (d : DirUnit) (hne : d.dcms ≠ [])
    (hfail : ∀ f ∈ d.dcms, process_single_dicom f = PSD.raised)
    (hnotdone : d.rel ∉ fs.doneDirs)
    (hnores : dictGet d.rel fs.resultsFiles = none) :
    (dirEvents view fs d).1 = [Event.markDone d.rel]
    ∧ (runDir view fs d).1.resultsFiles = fs.resultsFiles
    ∧ (runDir view fs d).1.failedFiles = fs.failedFiles
    ∧ (runDir view fs d).1.doneDirs = fs.doneDirs ++ [d.rel]
    ∧ (processDir view d.rel d.dcms).failed
        = d.dcms.map (fun f => fkey d.rel f.name)
    ∧ runDir view (runDir view fs d).1 d = ((runDir view fs d).1, ⟨0, []⟩) := by
  have hflush : (processDir view d.rel d.dcms).flushLog = [] := by
    rw [processDir_eq]
    exact (foldSteps_allRaised view d.rel d.dcms.length d.dcms 0 startState
      hfail rfl).1
  have hev : (dirEvents view fs d).1 = [Event.markDone d.rel] := by
    rw [dirEvents_pending view fs d hne hnotdone hnores]
    simp [hflush]
  have hrun1 : (runDir view fs d).1 = applyEvent fs (Event.markDone d.rel) := by
    rw [runDir_eq, hev]
    rfl
  have hfailed : (processDir view d.rel d.dcms).failed
      = d.dcms.map (fun f => fkey d.rel f.name) := by
    rw [processDir_eq, foldSteps_failed view d.rel d.dcms.length d.dcms 0
      startState]
    have hfilter : d.dcms.filter (fun f => raisedB f) = d.dcms :=
      List.filter_eq_self.mpr (fun f hf => by
        unfold raisedB
        exact decide_eq_true (hfail f hf))
    rw [hfilter]
    simp [startState]
  refine ⟨hev, ?_, ?_, ?_, hfailed, ?_⟩
  · rw [hrun1]
    rfl
  · rw [hrun1]
    rfl
  · rw [hrun1]
    rfl
  · apply runDir_skip
    right
    rw [hrun1]
    exact List.mem_append_right _ (by simp)

/-- Witness for C10 at the one-file all-failing directory `sub`. -/
theorem C10_allfail_never_persisted_witness :
    (dirEvents viewStub fsEmpty dirAllFail).1 = [Event.markDone "sub"]
    ∧ (processDir viewStub dirAllFail.rel dirAllFail.dcms).failed
        = ["sub/a.dcm"] := by
  have h := C10_allfail_never_persisted viewStub fsEmpty dirAllFail
    (by decide) (by decide) (by decide) (by decide)
  exact ⟨h.1, h.2.2.2.2.1⟩

/-- C8: an exception while processing a single file is caught at the
per-file boundary: the file's relative path lands in the failure list, yet
the loop still attempts every file of the directory, the directory's event
sequence still ends with its completion mark, and the directory is marked
done — no single-file failure aborts the directory or the run. -/
theorem C8_per_file_isolation (view : List Int → String) (fs : FS)
    (d : DirUnit) (f : DicomFile)
    (hnotdone : d.rel ∉ fs.doneDirs)
    (hnores : dictGet d.rel fs.resultsFiles = none)
    (hf : f ∈ d.dcms) (hraised : process_single_dicom f = PSD.raised) :
    fkey d.rel f.name ∈ (processDir view d.rel d.dcms).failed
    ∧ (processDir view d.rel d.dcms).attempted
        = d.dcms.map (fun g => fkey d.rel g.name)
    ∧ (dirEvents view fs d).1.getLast? = some (Event.markDone d.rel)
    ∧ d.rel ∈ (runDir view fs d).1.doneDirs := by
  have hne : d.dcms ≠ [] := by
    intro h
    rw [h] at hf
    exact absurd hf (by simp)
  refine ⟨?_, ?_, ?_, runDir_done_mem view fs d hne⟩
  · rw [processDir_eq,
      foldSteps_failed view d.rel d.dcms.length d.dcms 0 startState]
    apply List.mem_append_right
    exact List.mem_map_of_mem _
      (List.mem_filter.mpr ⟨hf, by
        unfold raisedB
        exact decide_eq_true hraised⟩)
  · rw [processDir_eq,
      foldSteps_attempted view d.rel d.dcms.length d.dcms 0 startState]
    simp [startState]
  · rw [dirEvents_pending view fs d hne hnotdone hnores]
    exact List.getLast?_concat _

/-- Witness for C8: the corrupt file of the mixed directory is recorded and
the directory still completes. -/
theorem C8_per_file_isolation_witness :
    fkey dirMixed.rel fileBad.name
        ∈ (processDir viewStub dirMixed.rel dirMixed.dcms).failed
    ∧ dirMixed.rel ∈ (runDir viewStub fsEmpty dirMixed).1.doneDirs := by
  have h := C8_per_file_isolation viewStub fsEmpty dirMixed fileBad
    (by decide) (by decide) (by decide) (by decide)
  exact ⟨h.1, h.2.2.2⟩

/-- C1 (amended): the driver never loads a pre-existing partial result file.
When a pending directory's `results.json` already exists on disk the whole
directory is skipped — it is appended to `done_dirs.txt` and no file in it
is attempted, regardless of which keys the old document contains; only when
no `results.json` exists is the directory processed, and then every file is
attempted. -/
theorem C1_no_resume (view : List Int → String) (fs : FS) (d : DirUnit)
    (hne : d.dcms ≠ []) (hnotdone : d.rel ∉ fs.doneDirs) :
    ((dictGet d.rel fs.resultsFiles).isSome →
        runDir view fs d
          = ({ fs with doneDirs := fs.doneDirs ++ [d.rel] }, ⟨0, []⟩))
    ∧ (dictGet d.rel fs.resultsFiles = none →
        (runDir view fs d).2.attempted
          = d.dcms.map (fun f => fkey d.rel f.name)) := by
  constructor
  · intro h2
    rw [runDir_eq, dirEvents_res_exists view fs d hne hnotdone h2]
    rfl
  · intro h2
    rw [runDir_eq, dirEvents_pending view fs d hne hnotdone h2]
    show (processDir view d.rel d.dcms).attempted = _
    rw [processDir_eq,
      foldSteps_attempted view d.rel d.dcms.length d.dcms 0 startState]
    simp [startState]

/-- Witness for C1 (amended): with a partial `results.json` present for
directory `d`, the driver only appends `d` to `done_dirs.txt` and attempts
nothing. -/
theorem C1_no_resume_witness :
    runDir viewStub fsPartRes dirD
      = ({ fsPartRes with doneDirs := fsPartRes.doneDirs ++ ["d"] },
         ⟨0, []⟩) := by
  have h := C1_no_resume viewStub fsPartRes dirD (by decide) (by decide)
  exact h.1 (by decide)

/-- C9: a second driver run over the same directories, starting from the
on-disk state the first run left behind, changes nothing: it is the
identity on the filesystem (so every `results.json` is bit-identical),
attempts no file, and performs zero classifier invocations, because every
`.dcm`-bearing directory was added to `done_dirs.txt` by the first run. -/
theorem C9_second_run_identity (view : List Int → String) (fs : FS)
    (dirs : List DirUnit) :
    runAll view (runAll view fs dirs).1 dirs
        = ((runAll view fs dirs).1, ⟨0, []⟩)
    ∧ (runAll view (runAll view fs dirs).1 dirs).1.resultsFiles
        = (runAll view fs dirs).1.resultsFiles
    ∧ (runAll view (runAll view fs dirs).1 dirs).2.classifyCount = 0 := by
  have hdone : ∀ d ∈ dirs,
      d.dcms = [] ∨ d.rel ∈ (runAll view fs dirs).1.doneDirs := by
    intro d hd
    by_cases hne : d.dcms = []
    · exact Or.inl hne
    · exact Or.inr (foldl_runStep_done_mem view dirs (fs, ⟨0, []⟩) d hd hne)
  have h : runAll view (runAll view fs dirs).1 dirs
      = ((runAll view fs dirs).1, ⟨0, []⟩) :=
    runAll_skip view dirs (runAll view fs dirs).1 ⟨0, []⟩ hdone
  exact ⟨h, by rw [h], by rw [h]⟩

/-! ## The cleanup pass -/

theorem dictGet_cons {α : Type} (k : String) (p : String × α)
    (rest : List (String × α)) :
    dictGet k (p :: rest) = if p.1 = k then some p.2 else dictGet k rest := rfl

theorem dictGet_dictErase_self {α : Type} (k : String) :
    ∀ d : List (String × α), dictGet k (dictErase k d) = none
  | [] => rfl
  | p :: rest => by
      show dictGet k ((p :: rest).filter (fun q => q.1 != k)) = none
      rw [List.filter_cons]
      by_cases h : p.1 = k
      · rw [if_neg (by simp [h])]
        exact dictGet_dictErase_self k rest
      · rw [if_pos (by simp [h]), dictGet_cons, if_neg h]
        exact dictGet_dictErase_self k rest

theorem dictGet_dictErase_ne {α : Type} (k k' : String) (hne : k' ≠ k) :
    ∀ d : List (String × α), dictGet k' (dictErase k d) = dictGet k' d
  | [] => rfl
  | p :: rest => by
      show dictGet k' ((p :: rest).filter (fun q => q.1 != k))
        = dictGet k' (p :: rest)
      rw [List.filter_cons, dictGet_cons k' p rest]
      by_cases h : p.1 = k
      · rw [if_neg (by simp [h]),
          if_neg (by rw [h]; exact fun hc => hne hc.symm)]
        exact dictGet_dictErase_ne k k' hne rest
      · rw [if_pos (by simp [h]), dictGet_cons]
        by_cases h' : p.1 = k'
        · rw [if_pos h', if_pos h']
        · rw [if_neg h', if_neg h']
          exact dictGet_dictErase_ne k k' hne rest

theorem cleanRecord_pixel_none (md0 : Meta) (pv : String) (md : Meta)
    (pv' : String)
    (h : cleanRecord (ResultRecord.succRec md0 pv)
          = ResultRecord.succRec md pv') :
    dictGet "Pixel Data" md = none := by
  simp only [cleanRecord] at h
  injection h with h1 _
  rw [← h1]
  have hpd1 : dictGet "Pixel Data"
      (if (dictGet "Pixel Data" md0).isSome then
        dictErase "Pixel Data" md0 else md0) = none := by
    by_cases hs : (dictGet "Pixel Data" md0).isSome
    · rw [if_pos hs]
      exact dictGet_dictErase_self _ md0
    · rw [if_neg hs]
      cases hx : dictGet "Pixel Data" md0
      · rfl
      · rw [hx] at hs
        simp at hs
  set md1 := if (dictGet "Pixel Data" md0).isSome then
    dictErase "Pixel Data" md0 else md0 with hmd1
  by_cases hs2 : (dictGet "Sequence of Ultrasound Regions" md1).isSome
  · rw [if_pos hs2]
    rw [dictGet_dictErase_ne _ _ (by decide) md1]
    exact hpd1
  · rw [if_neg hs2]
    exact hpd1

/-- C3 (amended): the driver's serializer includes every dataset element —
so a "Pixel Data" key appears in success records written to `results.json`
whenever the dataset carries that element (see the counterexample) — and it
is the separate `clean_pixel_data_from_json` pass that removes the
"Pixel Data" (and "Sequence of Ultrasound Regions") keys; only after that
cleanup does no success record's metadata contain a "Pixel Data" key. -/
theorem C3_cleaned_no_pixel_key (data : ResultMap) :
    ∀ k r, (k, r) ∈ clean_pixel_data_from_json data →
      ∀ md pv, r = ResultRecord.succRec md pv →
        dictGet "Pixel Data" md = none := by
  intro k r hmem md pv hr
  unfold clean_pixel_data_from_json at hmem
  obtain ⟨p, hp, heq⟩ := List.mem_map.mp hmem
  have hrec : cleanRecord p.2 = r := congrArg Prod.snd heq
  cases hp2 : p.2 with
  | succRec md0 pv0 =>
      rw [hp2] at hrec
      rw [hr] at hrec
      exact cleanRecord_pixel_none md0 pv0 md pv hrec
  | errRec e t =>
      rw [hp2] at hrec
      rw [hr] at hrec
      simp only [cleanRecord] at hrec
      exact absurd hrec (by simp)

/-- Witness for C3 (amended): cleaning a document whose single success
record carries a "Pixel Data" key yields metadata without that key. -/
theorem C3_cleaned_no_pixel_key_witness :
    dictGet "Pixel Data" [("Rows", "224")] = none :=
  C3_cleaned_no_pixel_key
    [("sub/b.dcm",
      ResultRecord.succRec
        [("Pixel Data", "Array of 100 elements"), ("Rows", "224")] "A4C")]
    "sub/b.dcm" (ResultRecord.succRec [("Rows", "224")] "A4C")
    (by decide) [("Rows", "224")] "A4C" rfl

/-- C6 (amended): for a file whose DICOM read itself succeeds, assembly
fails exactly when the pixel array has fewer than 3 dimensions or its
dimension at index 2 equals 3 — for a 3-D array that index-2 dimension is
the last one (the single-RGB-still heuristic), but for higher-rank arrays
the code does not test the last dimension — and such a failure is recorded
in the directory's failure list, never silently skipped. -/
theorem C6_shape_heuristic (f : DicomFile) (hdec : f.decodeFails = false) :
    (process_single_dicom f = PSD.raised
      ↔ (f.shape.length < 3 ∨ f.shape[2]? = some 3))
    ∧ (∀ (view : List Int → String) (rel : String) (dcms : List DicomFile),
        f ∈ dcms → process_single_dicom f = PSD.raised →
          fkey rel f.name ∈ (processDir view rel dcms).failed) := by
  constructor
  · have h1 : process_single_dicom f
        = if shapeRaises f.shape then PSD.raised
          else PSD.ok (serializeMeta f.elements) (assembleVideo f.frames) := by
      unfold process_single_dicom
      rw [if_neg (by rw [hdec]; simp)]
    rw [h1]
    by_cases hs : shapeRaises f.shape = true
    · rw [if_pos hs]
      simp only [shapeRaises, Bool.or_eq_true, decide_eq_true_iff] at hs
      exact ⟨fun _ => hs, fun _ => rfl⟩
    · rw [if_neg hs]
      constructor
      · intro h
        exact absurd h (by simp)
      · intro hp
        exfalso
        apply hs
        simp only [shapeRaises, Bool.or_eq_true, decide_eq_true_iff]
        exact hp
  · intro view rel dcms hf hraised
    rw [processDir_eq,
      foldSteps_failed view rel dcms.length dcms 0 startState]
    apply List.mem_append_right
    exact List.mem_map_of_mem _
      (List.mem_filter.mpr ⟨hf, by
        unfold raisedB
        exact decide_eq_true hraised⟩)

/-- Witness for C6 (amended): a `[600, 800, 3]` color still raises and is
recorded in the failure list of its directory. -/
theorem C6_shape_heuristic_witness :
    process_single_dicom fileStill = PSD.raised
    ∧ fkey "sub" fileStill.name
        ∈ (processDir viewStub "sub" [fileStill]).failed := by
  have h := C6_shape_heuristic fileStill rfl
  have hr : process_single_dicom fileStill = PSD.raised :=
    h.1.mpr (Or.inr (by decide))
  exact ⟨hr, h.2 viewStub "sub" [fileStill] (by decide) hr⟩

/-! ## The results map of a processed directory -/

theorem insertAll_append {α : Type} (d xs ys : List (String × α)) :
    insertAll d (xs ++ ys) = insertAll (insertAll d xs) ys := by
  simp [insertAll, List.foldl_append]

theorem dictInsert_of_not_mem {α : Type} (k : String) (v : α)
    (d : List (String × α)) (h : dictGet k d = none) :
    dictInsert k v d = d ++ [(k, v)] := by
  unfold dictInsert
  rw [if_neg (by rw [h]; simp)]

theorem insertAll_disjoint {α : Type} :
    ∀ (xs d : List (String × α)),
      (∀ p ∈ xs, dictGet p.1 d = none) → (xs.map Prod.fst).Nodup →
      insertAll d xs = d ++ xs
  | [], d, _, _ => by simp [insertAll]
  | p :: rest, d, hdis, hnd => by
      have h1 : dictInsert p.1 p.2 d = d ++ [p] := by
        rw [dictInsert_of_not_mem p.1 p.2 d (hdis p (by simp))]
      have hd2 : ∀ q ∈ rest, dictGet q.1 (d ++ [p]) = none := by
        intro q hq
        rw [dictGet_append_of_none q.1 d [p] (hdis q (by simp [hq])),
          dictGet_cons]
        rw [if_neg ?_]
        · rfl
        · have hnm : p.1 ∉ rest.map Prod.fst := (List.nodup_cons.mp hnd).1
          intro hc
          exact hnm (hc ▸ List.mem_map_of_mem Prod.fst hq)
      have IH := insertAll_disjoint rest (d ++ [p]) hd2
        (List.nodup_cons.mp hnd).2
      show insertAll (dictInsert p.1 p.2 d) rest = _
      rw [h1, IH]
      simp

theorem dictGet_of_mem_nodup {α : Type} :
    ∀ (xs : List (String × α)) (k : String) (v : α),
      (k, v) ∈ xs → (xs.map Prod.fst).Nodup → dictGet k xs = some v
  | [], _, _, h, _ => absurd h (by simp)
  | p :: rest, k, v, h, hnd => by
      rw [dictGet_cons]
      rcases List.mem_cons.mp h with he | ht
      · rw [← he]
        simp
      · have hk : p.1 ≠ k := by
          intro hc
          have hmem : k ∈ rest.map Prod.fst := by
            have := List.mem_map_of_mem Prod.fst ht
            simpa using this
          exact (List.nodup_cons.mp hnd).1 (hc ▸ hmem)
        rw [if_neg hk]
        exact dictGet_of_mem_nodup rest k v ht (List.nodup_cons.mp hnd).2

theorem dictGet_none_of_not_mem {α : Type} :
    ∀ (xs : List (String × α)) (k : String),
      k ∉ xs.map Prod.fst → dictGet k xs = none
  | [], _, _ => rfl
  | p :: rest, k, h => by
      rw [dictGet_cons, if_neg (fun hc => h (by rw [← hc]; simp))]
      exact dictGet_none_of_not_mem rest k (fun hm => h (by simp [hm]))

theorem doFlush_results_pending (view : List Int → String) (rel : String)
    (pending : List DicomFile) (s : DirState)
    (hm : s.metas = pending.map (fun f => serializeMeta f.elements))
    (hv : s.vids = pending.map (fun f => assembleVideo f.frames))
    (hn : s.names = pending.map (fun f => f.name)) :
    (doFlush view rel s).results
      = insertAll s.results (pending.map (recOf view rel)) := by
  rw [doFlush_eq]
  show ((s.names.zip s.metas).zip (s.vids.map view)).foldl
      (fun r p =>
        dictInsert (fkey rel p.1.1) (ResultRecord.succRec p.1.2 p.2) r)
      s.results = _
  rw [hm, hv, hn, List.map_map, List.zip_map', List.zip_map']
  simp [insertAll, List.foldl_map, recOf, Function.comp]

theorem foldSteps_results (view : List Int → String) (rel : String)
    (total : Nat) :
    ∀ (l : List DicomFile) (j : Nat) (pending : List DicomFile)
      (s : DirState),
      j + l.length = total →
      s.metas = pending.map (fun f => serializeMeta f.elements) →
      s.vids = pending.map (fun f => assembleVideo f.frames) →
      s.names = pending.map (fun f => f.name) →
      l ≠ [] →
      (((l.enumFrom j).foldl (dirStep view rel total) s).results
          = insertAll s.results
              ((pending ++ l.filter (fun f => !raisedB f)).map
                (recOf view rel)))
      ∧ ((l.enumFrom j).foldl (dirStep view rel total) s).vids = []
  | [], _, _, _, _, _, _, _, hne => absurd rfl hne
  | [x], j, pending, s, hj, hm, hv, hn, _ => by
      have hjlast : j = total - 1 := by
        simp at hj
        omega
      simp only [List.enumFrom, List.foldl_cons, List.foldl_nil]
      cases hx : process_single_dicom x with
      | raised =>
          have hfx : (!raisedB x) = false := by simp [raisedB, hx]
          rw [dirStep_eq, intake_raised rel s x hx]
          by_cases hp : pending = []
          · have hvids : s.vids = [] := by rw [hv, hp]; rfl
            rw [if_neg (by simp [flushNow, hvids, BATCH_SIZE])]
            refine ⟨?_, hvids⟩
            show s.results = _
            simp [List.filter_cons, hfx, hp, insertAll]
          · have hvne : s.vids ≠ [] := by
              rw [hv]
              intro hc
              exact hp (List.map_eq_nil_iff.mp hc)
            have hfl : flushNow total j
                { s with attempted := s.attempted ++ [fkey rel x.name],
                         failed := s.failed ++ [fkey rel x.name] }
                  = true := by
              rw [flushNow_iff]
              exact Or.inr ⟨hjlast, hvne⟩
            rw [if_pos hfl]
            have hres := doFlush_results_pending view rel pending
              { s with attempted := s.attempted ++ [fkey rel x.name],
                       failed := s.failed ++ [fkey rel x.name] }
              hm hv hn
            refine ⟨?_, by rw [doFlush_eq]⟩
            rw [hres]
            show insertAll s.results _ = insertAll s.results _
            simp [List.filter_cons, hfx]
      | ok m v =>
          obtain ⟨hm2, hv2⟩ := psd_ok_inv x m v hx
          subst hm2 hv2
          have hfx : (!raisedB x) = true := by simp [raisedB, hx]
          rw [dirStep_eq, intake_ok rel s x _ _ hx]
          have hvne : s.vids ++ [assembleVideo x.frames] ≠ [] := by simp
          have hfl : flushNow total j
              { s with attempted := s.attempted ++ [fkey rel x.name],
                       metas := s.metas ++ [serializeMeta x.elements],
                       vids := s.vids ++ [assembleVideo x.frames],
                       names := s.names ++ [x.name] } = true := by
            rw [flushNow_iff]
            exact Or.inr ⟨hjlast, hvne⟩
          rw [if_pos hfl]
          have hres := doFlush_results_pending view rel (pending ++ [x])
            { s with attempted := s.attempted ++ [fkey rel x.name],
                     metas := s.metas ++ [serializeMeta x.elements],
                     vids := s.vids ++ [assembleVideo x.frames],
                     names := s.names ++ [x.name] }
            (by show s.metas ++ _ = _; rw [hm]; simp)
            (by show s.vids ++ _ = _; rw [hv]; simp)
            (by show s.names ++ _ = _; rw [hn]; simp)
          refine ⟨?_, by rw [doFlush_eq]⟩
          rw [hres]
          show insertAll s.results _ = insertAll s.results _
          simp [List.filter_cons, hfx]
  | x :: y :: rest, j, pending, s, hj, hm, hv, hn, _ => by
      have hj2 : (j + 1) + (y :: rest).length = total := by
        simp at hj ⊢
        omega
      have hunfold : List.enumFrom j (x :: y :: rest)
          = (j, x) :: List.enumFrom (j + 1) (y :: rest) := rfl
      rw [hunfold, List.foldl_cons]
      cases hx : process_single_dicom x with
      | raised =>
          have hfx : (!raisedB x) = false := by simp [raisedB, hx]
          rw [dirStep_eq, intake_raised rel s x hx]
          by_cases hfl : flushNow total j
              { s with attempted := s.attempted ++ [fkey rel x.name],
                       failed := s.failed ++ [fkey rel x.name] } = true
          · rw [if_pos hfl]
            have hres := doFlush_results_pending view rel pending
              { s with attempted := s.attempted ++ [fkey rel x.name],
                       failed := s.failed ++ [fkey rel x.name] }
              hm hv hn
            have IH := foldSteps_results view rel total (y :: rest) (j + 1)
              []
              (doFlush view rel
                { s with attempted := s.attempted ++ [fkey rel x.name],
                         failed := s.failed ++ [fkey rel x.name] })
              hj2 (by rw [doFlush_eq]; simp) (by rw [doFlush_eq]; simp)
              (by rw [doFlush_eq]; simp) (by simp)
            refine ⟨?_, IH.2⟩
            rw [IH.1, hres, ← insertAll_append, ← List.map_append]
            simp [List.filter_cons, hfx]
          · rw [if_neg hfl]
            have IH := foldSteps_results view rel total (y :: rest) (j + 1)
              pending
              { s with attempted := s.attempted ++ [fkey rel x.name],
                       failed := s.failed ++ [fkey rel x.name] }
              hj2 hm hv hn (by simp)
            refine ⟨?_, IH.2⟩
            rw [IH.1]
            show insertAll s.results _ = insertAll s.results _
            simp [List.filter_cons, hfx]
      | ok m v =>
          obtain ⟨hm2, hv2⟩ := psd_ok_inv x m v hx
          subst hm2 hv2
          have hfx : (!raisedB x) = true := by simp [raisedB, hx]
          rw [dirStep_eq, intake_ok rel s x _ _ hx]
          by_cases hfl : flushNow total j
              { s with attempted := s.attempted ++ [fkey rel x.name],
                       metas := s.metas ++ [serializeMeta x.elements],
                       vids := s.vids ++ [assembleVideo x.frames],
                       names := s.names ++ [x.name] } = true
          · rw [if_pos hfl]
            have hres := doFlush_results_pending view rel (pending ++ [x])
              { s with attempted := s.attempted ++ [fkey rel x.name],
                       metas := s.metas ++ [serializeMeta x.elements],
                       vids := s.vids ++ [assembleVideo x.frames],
                       names := s.names ++ [x.name] }
              (by show s.metas ++ _ = _; rw [hm]; simp)
              (by show s.vids ++ _ = _; rw [hv]; simp)
              (by show s.names ++ _ = _; rw [hn]; simp)
            have IH := foldSteps_results view rel total (y :: rest) (j + 1)
              []
              (doFlush view rel
                { s with attempted := s.attempted ++ [fkey rel x.name],
                         metas := s.metas ++ [serializeMeta x.elements],
                         vids := s.vids ++ [assembleVideo x.frames],
                         names := s.names ++ [x.name] })
              hj2 (by rw [doFlush_eq]; simp) (by rw [doFlush_eq]; simp)
              (by rw [doFlush_eq]; simp) (by simp)
            refine ⟨?_, IH.2⟩
            rw [IH.1, hres, ← insertAll_append, ← List.map_append]
            simp [List.filter_cons, hfx]
          · rw [if_neg hfl]
            have IH := foldSteps_results view rel total (y :: rest) (j + 1)
              (pending ++ [x])
              { s with attempted := s.attempted ++ [fkey rel x.name],
                       metas := s.metas ++ [serializeMeta x.elements],
                       vids := s.vids ++ [assembleVideo x.frames],
                       names := s.names ++ [x.name] }
              hj2
              (by show s.metas ++ _ = _; rw [hm]; simp)
              (by show s.vids ++ _ = _; rw [hv]; simp)
              (by show s.names ++ _ = _; rw [hn]; simp) (by simp)
            refine ⟨?_, IH.2⟩
            rw [IH.1]
            show insertAll s.results _ = insertAll s.results _
            simp [List.filter_cons, hfx]

theorem processDir_results (view : List Int → String) (rel : String)
    (dcms : List DicomFile) (hne : dcms ≠ []) :
    (processDir view rel dcms).results
      = insertAll []
          ((dcms.filter (fun f => !raisedB f)).map (recOf view rel)) := by
  rw [processDir_eq]
  have h := foldSteps_results view rel dcms.length dcms 0 [] startState
    (by simp) rfl rfl rfl hne
  simpa using h.1

/-- C4 (amended): under distinct file keys, every file whose processing
raises before classification is recorded by its relative path in the
directory's failure list and gets NO entry in the result map (there is no
`{error, trace}` record); every successfully classified file gets exactly
the entry `{metadata, predicted_view}`; and every entry of the result map
is of the success form. -/
theorem C4_record_forms (view : List Int → String) (rel : String)
    (dcms : List DicomFile)
    (hkeys : (dcms.map (fun f => fkey rel f.name)).Nodup) :
    (∀ f ∈ dcms, process_single_dicom f = PSD.raised →
        fkey rel f.name ∈ (processDir view rel dcms).failed
        ∧ dictGet (fkey rel f.name) (processDir view rel dcms).results
            = none)
    ∧ (∀ f ∈ dcms, ∀ m v, process_single_dicom f = PSD.ok m v →
        dictGet (fkey rel f.name) (processDir view rel dcms).results
          = some (ResultRecord.succRec m (view v)))
    ∧ (∀ k r, (k, r) ∈ (processDir view rel dcms).results →
        ∃ mm pv, r = ResultRecord.succRec mm pv) := by
  by_cases hne : dcms = []
  · subst hne
    have hnil : (processDir view rel []).results = [] := rfl
    refine ⟨fun f hf => absurd hf (by simp),
            fun f hf => absurd hf (by simp), ?_⟩
    intro k r hmem
    rw [hnil] at hmem
    exact absurd hmem (by simp)
  · have hres := processDir_results view rel dcms hne
    have hkeysok : ((dcms.filter (fun f => !raisedB f)).map
        (fun f => fkey rel f.name)).Nodup :=
      hkeys.sublist ((List.filter_sublist dcms).map _)
    have hmapfst :
        (((dcms.filter (fun f => !raisedB f)).map (recOf view rel)).map
            Prod.fst)
          = (dcms.filter (fun f => !raisedB f)).map
              (fun f => fkey rel f.name) := by
      simp [recOf, List.map_map, Function.comp]
    have hplain : (processDir view rel dcms).results
        = (dcms.filter (fun f => !raisedB f)).map (recOf view rel) := by
      rw [hres]
      have h0 := insertAll_disjoint
        ((dcms.filter (fun f => !raisedB f)).map (recOf view rel)) []
        (fun p _ => rfl) (by rw [hmapfst]; exact hkeysok)
      simpa using h0
    have hinj : ∀ a ∈ dcms, ∀ b ∈ dcms,
        fkey rel a.name = fkey rel b.name → a = b := by
      intro a ha b hb hab
      exact List.inj_on_of_nodup_map hkeys ha hb hab
    refine ⟨?_, ?_, ?_⟩
    · intro f hf hraised
      constructor
      · rw [processDir_eq,
          foldSteps_failed view rel dcms.length dcms 0 startState]
        apply List.mem_append_right
        exact List.mem_map_of_mem _
          (List.mem_filter.mpr ⟨hf, by
            unfold raisedB
            exact decide_eq_true hraised⟩)
      · rw [hplain]
        apply dictGet_none_of_not_mem
        rw [hmapfst]
        intro hmem
        obtain ⟨g, hg, hgk⟩ := List.mem_map.mp hmem
        have hgd : g ∈ dcms := (List.mem_filter.mp hg).1
        have hgok : (!raisedB g) = true := (List.mem_filter.mp hg).2
        have hgf : g = f := hinj g hgd f hf hgk
        subst hgf
        simp [raisedB, hraised] at hgok
    · intro f hf m v hok
      obtain ⟨hm2, hv2⟩ := psd_ok_inv f m v hok
      subst hm2 hv2
      rw [hplain]
      have hfok : f ∈ dcms.filter (fun g => !raisedB g) :=
        List.mem_filter.mpr ⟨hf, by simp [raisedB, hok]⟩
      exact dictGet_of_mem_nodup _ (fkey rel f.name)
        (ResultRecord.succRec (serializeMeta f.elements)
          (view (assembleVideo f.frames)))
        (List.mem_map_of_mem (recOf view rel) hfok)
        (by rw [hmapfst]; exact hkeysok)
    · intro k r hmem
      rw [hplain] at hmem
      obtain ⟨g, _, hgk⟩ := List.mem_map.mp hmem
      refine ⟨serializeMeta g.elements, view (assembleVideo g.frames), ?_⟩
      have h2 : (recOf view rel g).2 = r := congrArg Prod.snd hgk
      rw [← h2]
      rfl

/-- Witness for C4 (amended) on the mixed directory: the corrupt file has a
failure-list line and no result entry; the valid file has a success
entry. -/
theorem C4_record_forms_witness :
    fkey "sub" fileBad.name
        ∈ (processDir viewStub "sub" [fileBad, filePix]).failed
    ∧ dictGet (fkey "sub" fileBad.name)
        (processDir viewStub "sub" [fileBad, filePix]).results = none
    ∧ dictGet (fkey "sub" filePix.name)
        (processDir viewStub "sub" [fileBad, filePix]).results
      = some (ResultRecord.succRec (serializeMeta filePix.elements)
          (viewStub (assembleVideo filePix.frames))) := by
  have h := C4_record_forms viewStub "sub" [fileBad, filePix] (by decide)
  have h1 := h.1 fileBad (by simp) (by decide)
  have h2 := h.2.1 filePix (by simp) (serializeMeta filePix.elements)
    (assembleVideo filePix.frames) (by decide)
  exact ⟨h1.1, h1.2, h2⟩

end EchoVLM
